import Mathlib

/-!
Verification of the `algs` generic algorithm library (`src/algs.h`).

The C++ algorithms operate on half-open cursor ranges `[b, e)`.  We embed a
range as a Lean `List α` holding the range's elements; a cursor into the range
is the `Nat` offset from `b` (so cursor `e` corresponds to `l.length`).
In-place mutation through forward/bidirectional cursors is embedded as
functional update with `List.set`, and element reads as `List.getD` (every
read in the source is performed only at in-range cursors; the theorems
constrain indices accordingly).  Each definition mirrors one C++ loop or
recursion from `src/algs.h`.
-/

set_option linter.unusedSectionVars false

namespace Algs

section Scalar

variable {α : Type} [LT α] [DecidableRel (α := α) (· < ·)]

/-- Embedding of `algs::max` (algs.h:368): `return x > y ? x : y;`. -/
def max (x y : α) : α :=
  if y < x then x else y

/-- Embedding of `algs::min` (algs.h:378): `return x < y ? x : y;`. -/
def min (x y : α) : α :=
  if x < y then x else y

/-- C9: tie behavior of `algs::max` and `algs::min`: `max x y` is `y` whenever
`x > y` does not hold, and `min x y` is `x` when `x < y` holds and `y`
otherwise. -/
theorem max_min_tie (x y : α) :
    (¬ y < x → Algs.max x y = y) ∧
    (x < y → Algs.min x y = x) ∧
    (¬ x < y → Algs.min x y = y) := by
  refine ⟨?_, ?_, ?_⟩
  · intro h; simp [Algs.max, h]
  · intro h; simp [Algs.min, h]
  · intro h; simp [Algs.min, h]

end Scalar

variable {α : Type} [DecidableEq α] [Inhabited α]

/-- Embedding of `algs::find` (algs.h:51-56): `while (b != e && *b != x) ++b;
return b;`.  The returned cursor is the offset from `b`; offset `l.length`
stands for `e`. -/
def find (x : α) : List α → Nat
  | [] => 0
  | a :: t => if a ≠ x then find x t + 1 else 0

/-- Embedding of `algs::rfind` (algs.h:67-73): `if (b == e || *b == x) return b;
b++; return rfind(b, e, x);`. -/
def rfind (x : α) : List α → Nat
  | [] => 0
  | a :: t => if a = x then 0 else rfind x t + 1

/-- C6: the recursive `rfind` and the iterative `find` return the same cursor
for every range and value: the first position whose element equals `x`, or the
end cursor (`l.length`) when no element equals `x`. -/
theorem rfind_eq_find_first (l : List α) (x : α) :
    rfind x l = find x l ∧
    find x l ≤ l.length ∧
    (∀ i, i < find x l → l.getD i default ≠ x) ∧
    (find x l < l.length → l.getD (find x l) default = x) ∧
    (find x l = l.length → x ∉ l) := by
  induction l with
  | nil =>
    refine ⟨rfl, Nat.le_refl _, ?_, ?_, ?_⟩
    · intro i hi; simp [find] at hi
    · intro h; simp [find] at h
    · intro _; simp
  | cons a t ih =>
    obtain ⟨ih1, ih2, ih3, ih4, ih5⟩ := ih
    by_cases hax : a = x
    · refine ⟨?_, ?_, ?_, ?_, ?_⟩
      · simp [find, rfind, hax]
      · simp [find, hax]
      · intro i hi; simp [find, hax] at hi
      · intro _; simp [find, hax]
      · intro h; simp [find, hax] at h
    · refine ⟨?_, ?_, ?_, ?_, ?_⟩
      · simp [find, rfind, hax, ih1]
      · simpa [find, hax] using ih2
      · intro i hi
        simp only [find, if_pos hax] at hi
        match i with
        | 0 => simpa using hax
        | Nat.succ j =>
          have hj : j < find x t := by omega
          simpa using ih3 j hj
      · intro h
        simp only [find, if_pos hax] at h ⊢
        simpa using ih4 (by simpa using h)
      · intro h
        simp only [find, if_pos hax, List.length_cons] at h
        have hxt := ih5 (by omega)
        intro hmem
        rcases List.mem_cons.mp hmem with h1 | h1
        · exact hax h1.symm
        · exact hxt h1

/-- Embedding of `algs::swap` (algs.h:354-358) acting on two positions of one
underlying sequence, as `reverse` and `partition` use it: `X t = x; x = y;
y = t;` becomes two functional updates with the original values. -/
def swapL (l : List α) (i j : Nat) : List α :=
  (l.set i (l.getD j default)).set j (l.getD i default)

theorem length_swapL (l : List α) (i j : Nat) : (swapL l i j).length = l.length := by
  simp [swapL]

theorem getD_swapL (l : List α) (i j : Nat) (hi : i < l.length) (hj : j < l.length)
    (k : Nat) :
    (swapL l i j).getD k default =
      if k = j then l.getD i default
      else if k = i then l.getD j default
      else l.getD k default := by
  by_cases hk : k < l.length
  · have hk' : k < (swapL l i j).length := by rwa [length_swapL]
    rw [List.getD_eq_getElem _ _ hk']
    simp only [swapL, List.getElem_set]
    rcases eq_or_ne j k with h1 | h1
    · rw [if_pos h1, if_pos h1.symm, List.getD_eq_getElem _ _ hi]
    · rw [if_neg h1, if_neg (Ne.symm h1)]
      rcases eq_or_ne i k with h2 | h2
      · rw [if_pos h2, if_pos h2.symm, List.getD_eq_getElem _ _ hj]
      · rw [if_neg h2, if_neg (Ne.symm h2), List.getD_eq_getElem _ _ hk]
  · have h1 : k ≠ j := by omega
    have h2 : k ≠ i := by omega
    have hsw : (swapL l i j).length ≤ k := by rw [length_swapL]; omega
    rw [List.getD_eq_default _ _ hsw, if_neg h1, if_neg h2,
      List.getD_eq_default _ _ (by omega)]

/-- Embedding of `algs::reverse` (algs.h:280-287):
`while (b != e) { --e; if (b != e) swap(*b++, *e); }`. -/
def reverseLoop (l : List α) (b e : Nat) : List α :=
  if b = e then l
  else if b = e - 1 then l
  else if h : b < e - 1 then reverseLoop (swapL l b (e - 1)) (b + 1) (e - 1)
  else swapL l b (e - 1)
termination_by e - b
decreasing_by omega

/-- The whole-range call `algs::reverse(v.begin(), v.end())`. -/
def reverse (l : List α) : List α := reverseLoop l 0 l.length

theorem reverseLoop_length (N : Nat) : ∀ (l : List α) (b e : Nat), e - b ≤ N →
    (reverseLoop l b e).length = l.length := by
  induction N with
  | zero =>
    intro l b e hN
    rw [reverseLoop]
    have hbe : ¬ b < e - 1 := by omega
    by_cases h1 : b = e
    · simp [h1]
    · by_cases h2 : b = e - 1 <;> simp [h1, h2, hbe, length_swapL]
  | succ N ih =>
    intro l b e hN
    rw [reverseLoop]
    by_cases h1 : b = e
    · simp [h1]
    · by_cases h2 : b = e - 1
      · simp [h1, h2]
      · by_cases h3 : b < e - 1
        · simp only [h1, h2, h3, if_false, dif_pos]
          rw [ih _ _ _ (by omega), length_swapL]
        · simp [h1, h2, h3, length_swapL]

theorem reverseLoop_getD (N : Nat) : ∀ (l : List α) (b e : Nat), e - b ≤ N →
    b ≤ e → e ≤ l.length → ∀ k, k < l.length →
    (reverseLoop l b e).getD k default =
      if b ≤ k ∧ k < e then l.getD (b + e - 1 - k) default
      else l.getD k default := by
  induction N with
  | zero =>
    intro l b e hN hbe hel k hk
    have h1 : b = e := by omega
    rw [reverseLoop, if_pos h1]
    have : ¬ (b ≤ k ∧ k < e) := by omega
    rw [if_neg this]
  | succ N ih =>
    intro l b e hN hbe hel k hk
    rw [reverseLoop]
    by_cases h1 : b = e
    · have : ¬ (b ≤ k ∧ k < e) := by omega
      rw [if_pos h1, if_neg this]
    · by_cases h2 : b = e - 1
      · rw [if_neg h1, if_pos h2]
        by_cases h3 : b ≤ k ∧ k < e
        · have hkb : k = b := by omega
          have : b + e - 1 - k = k := by omega
          rw [if_pos h3, this]
        · rw [if_neg h3]
      · have h3 : b < e - 1 := by omega
        rw [if_neg h1, if_neg h2, dif_pos h3]
        have hbl : b < l.length := by omega
        have hel' : e - 1 < l.length := by omega
        have hswl : (swapL l b (e - 1)).length = l.length := length_swapL l b (e - 1)
        rw [ih (swapL l b (e - 1)) (b + 1) (e - 1) (by omega) (by omega)
          (by omega) k (by omega)]
        by_cases hc : b + 1 ≤ k ∧ k < e - 1
        · rw [if_pos hc, if_pos (by omega : b ≤ k ∧ k < e)]
          rw [getD_swapL l b (e - 1) hbl hel']
          have hj : b + 1 + (e - 1) - 1 - k ≠ e - 1 := by omega
          have hi : b + 1 + (e - 1) - 1 - k ≠ b := by omega
          rw [if_neg hj, if_neg hi]
          congr 1
          omega
        · rw [if_neg hc, getD_swapL l b (e - 1) hbl hel']
          by_cases hkj : k = e - 1
          · rw [if_pos hkj, if_pos (by omega : b ≤ k ∧ k < e)]
            congr 1
            omega
          · rw [if_neg hkj]
            by_cases hki : k = b
            · rw [if_pos hki, if_pos (by omega : b ≤ k ∧ k < e)]
              congr 1
              omega
            · rw [if_neg hki, if_neg (by omega : ¬ (b ≤ k ∧ k < e))]

theorem reverse_eq_listReverse (l : List α) : reverse l = l.reverse := by
  have hlen : (reverse l).length = l.length := reverseLoop_length l.length l 0 l.length (by omega)
  apply List.ext_getElem (by simp [hlen])
  intro k hk1 hk2
  have hk : k < l.length := by omega
  have hmain := reverseLoop_getD l.length l 0 l.length (by omega) (by omega) (le_refl _) k hk
  have hL : (reverse l)[k] = (reverse l).getD k default := (List.getD_eq_getElem _ _ hk1).symm
  rw [hL]
  show (reverseLoop l 0 l.length).getD k default = _
  rw [hmain, if_pos (by omega : 0 ≤ k ∧ k < l.length), List.getElem_reverse,
    List.getD_eq_getElem _ _ (by omega)]
  congr 1
  omega

/-- C8: `algs::reverse` reverses the order of the elements of the range in
place, and applying it twice restores the original contents. -/
theorem reverse_involutive (l : List α) :
    reverse (reverse l) = l ∧ reverse l = l.reverse := by
  have h := reverse_eq_listReverse l
  refine ⟨?_, h⟩
  rw [h, reverse_eq_listReverse, List.reverse_reverse]

theorem getD_congr_drop (l m : List α) (b k : Nat) (h : l.drop b = m.drop b)
    (hk : b ≤ k) : l.getD k default = m.getD k default := by
  have hq : l[k]? = m[k]? := by
    have h1 := List.getElem?_drop l b (k - b)
    have h2 := List.getElem?_drop m b (k - b)
    rw [h] at h1
    rw [show b + (k - b) = k from by omega] at h1 h2
    rw [← h1, ← h2]
  simp [List.getD_eq_getElem?_getD, hq]

/-- Embedding of `algs::remove_if` (algs.h:214-226): `ret` and `b` are the two
forward cursors into the range; `if (!p(*b)) { if (ret != b) *ret = *b; ++ret; }
++b;` in a loop while `b != e`. -/
def removeIfLoop (p : α → Bool) (l : List α) (b ret : Nat) : List α × Nat :=
  if h : b < l.length then
    if p (l.getD b default) then removeIfLoop p l (b + 1) ret
    else if ret ≠ b then removeIfLoop p (l.set ret (l.getD b default)) (b + 1) (ret + 1)
    else removeIfLoop p l (b + 1) (ret + 1)
  else (l, ret)
termination_by l.length - b
decreasing_by all_goals first | omega | (simp only [List.length_set]; omega)

/-- The whole-range call `algs::remove_if(v.begin(), v.end(), p)`: the result
is the final contents of the range together with the returned cursor. -/
def remove_if (p : α → Bool) (l : List α) : List α × Nat := removeIfLoop p l 0 0

/-- Embedding of `algs::remove` (algs.h:190-202), identical to `remove_if` but
skipping the elements with `*b == x` instead of those with `p(*b)`. -/
def removeLoop (x : α) (l : List α) (b ret : Nat) : List α × Nat :=
  if h : b < l.length then
    if l.getD b default = x then removeLoop x l (b + 1) ret
    else if ret ≠ b then removeLoop x (l.set ret (l.getD b default)) (b + 1) (ret + 1)
    else removeLoop x l (b + 1) (ret + 1)
  else (l, ret)
termination_by l.length - b
decreasing_by all_goals first | omega | (simp only [List.length_set]; omega)

/-- The whole-range call `algs::remove(v.begin(), v.end(), x)`. -/
def remove (x : α) (l : List α) : List α × Nat := removeLoop x l 0 0

theorem removeLoop_eq_removeIfLoop (x : α) (N : Nat) : ∀ (l : List α) (b ret : Nat),
    l.length - b ≤ N →
    removeLoop x l b ret = removeIfLoop (fun a => decide (a = x)) l b ret := by
  induction N with
  | zero =>
    intro l b ret hN
    rw [removeLoop, removeIfLoop]
    have : ¬ b < l.length := by omega
    simp [this]
  | succ N ih =>
    intro l b ret hN
    rw [removeLoop, removeIfLoop]
    by_cases hb : b < l.length
    · simp only [dif_pos hb, decide_eq_true_eq]
      by_cases hx : l.getD b default = x
      · simp only [if_pos hx]
        exact ih _ _ _ (by omega)
      · simp only [if_neg hx]
        by_cases hrb : ret ≠ b
        · simp only [if_pos hrb]
          exact ih _ _ _ (by rw [List.length_set]; omega)
        · simp only [if_neg hrb]
          exact ih _ _ _ (by omega)
    · rw [dif_neg hb, dif_neg hb]

theorem removeIfLoop_spec (p : α → Bool) (N : Nat) : ∀ (orig l : List α) (b ret : Nat),
    l.length - b ≤ N →
    l.length = orig.length → ret ≤ b → b ≤ l.length →
    l.take ret = (orig.take b).filter (fun a => !p a) →
    l.drop b = orig.drop b →
    (removeIfLoop p l b ret).1.take (removeIfLoop p l b ret).2
        = orig.filter (fun a => !p a) ∧
    (removeIfLoop p l b ret).2 = (orig.filter (fun a => !p a)).length ∧
    (removeIfLoop p l b ret).1.length = orig.length := by
  induction N with
  | zero =>
    intro orig l b ret hN hlen hrb hbl hpre hsuf
    have hb : ¬ b < l.length := by omega
    rw [removeIfLoop, dif_neg hb]
    have hble : b = l.length := by omega
    have htake : orig.take b = orig := List.take_of_length_le (by omega)
    rw [htake] at hpre
    refine ⟨hpre, ?_, hlen⟩
    have := congrArg List.length hpre
    simpa [List.length_take, Nat.min_eq_left (show ret ≤ l.length by omega)] using this
  | succ N ih =>
    intro orig l b ret hN hlen hrb hbl hpre hsuf
    rw [removeIfLoop]
    by_cases hb : b < l.length
    · rw [dif_pos hb]
      have hbo : b < orig.length := by omega
      have hv : l.getD b default = orig.getD b default :=
        getD_congr_drop l orig b b hsuf (le_refl b)
      have horigb : orig[b]? = some (orig.getD b default) := by
        simp [List.getD_eq_getElem?_getD, List.getElem?_eq_getElem hbo]
      have htakeo : orig.take (b + 1) = orig.take b ++ [orig.getD b default] := by
        rw [List.take_succ, horigb]
        rfl
      have hdrop1 : l.drop (b + 1) = orig.drop (b + 1) := by
        have h1 : List.drop 1 (List.drop b l) = List.drop 1 (List.drop b orig) := by
          rw [hsuf]
        rwa [List.drop_drop, List.drop_drop] at h1
      by_cases hp : p (l.getD b default) = true
      · rw [if_pos hp]
        apply ih orig l (b + 1) ret (by omega) hlen (by omega) (by omega) ?_ hdrop1
        have hneg : ¬ ((fun a => !p a) (orig.getD b default) = true) := by
          rw [← hv]
          simp only [Bool.not_eq_true', hp]
          exact fun hc => by simp at hc
        rw [htakeo, List.filter_append,
          List.filter_cons_of_neg (p := fun a => !p a) hneg,
          List.filter_nil, List.append_nil]
        exact hpre
      · rw [if_neg hp]
        have hpv : p (l.getD b default) = false := by
          revert hp
          cases p (l.getD b default) <;> simp
        have hkeep :
            ∀ l' : List α, l'.length = l.length → l'.take ret = l.take ret →
              l'.getD ret default = l.getD b default →
              l'.drop (b + 1) = l.drop (b + 1) →
              (removeIfLoop p l' (b + 1) (ret + 1)).1.take
                  (removeIfLoop p l' (b + 1) (ret + 1)).2
                    = orig.filter (fun a => !p a) ∧
              (removeIfLoop p l' (b + 1) (ret + 1)).2
                    = (orig.filter (fun a => !p a)).length ∧
              (removeIfLoop p l' (b + 1) (ret + 1)).1.length = orig.length := by
          intro l' hlen' htake' hget' hdrop'
          apply ih orig l' (b + 1) (ret + 1) (by omega) (by omega) (by omega) (by omega)
          · have hpos : (fun a => !p a) (orig.getD b default) = true := by
              rw [← hv]
              simp only [Bool.not_eq_true', hpv]
            have hretlt : ret < l'.length := by omega
            have hopt : l'[ret]? = some (orig.getD b default) := by
              rw [List.getElem?_eq_getElem hretlt,
                ← List.getD_eq_getElem l' default hretlt, hget', hv]
            rw [List.take_succ, htake', hpre, htakeo, List.filter_append,
              List.filter_cons_of_pos (p := fun a => !p a) hpos,
              List.filter_nil, hopt]
            rfl
          · rw [hdrop', hdrop1]
        by_cases hrbne : ret ≠ b
        · rw [if_pos hrbne]
          have hretb : ret < b := by omega
          apply hkeep
          · rw [List.length_set]
          · rw [List.set_take, List.set_eq_of_length_le]
            rw [List.length_take]
            omega
          · have hopt : (l.set ret (l.getD b default))[ret]? =
                some (l.getD b default) := List.getElem?_set_self (by omega)
            rw [List.getD_eq_getElem?_getD, hopt]
            rfl
          · rw [List.drop_set, if_pos (by omega)]
        · rw [if_neg hrbne]
          have hretb : ret = b := by omega
          apply hkeep l rfl rfl (by rw [hretb]) rfl
    · rw [dif_neg hb]
      have hble : b = l.length := by omega
      have htake : orig.take b = orig := List.take_of_length_le (by omega)
      rw [htake] at hpre
      refine ⟨hpre, ?_, hlen⟩
      have := congrArg List.length hpre
      simpa [List.length_take, Nat.min_eq_left (show ret ≤ l.length by omega)] using this

/-- C1: `algs::remove` compacts the range so that the prefix up to the returned
cursor is exactly the subsequence of elements different from `x`, in their
original relative order, and the returned cursor's distance from the range's
beginning is the count of such elements. -/
theorem remove_spec (x : α) (l : List α) :
    (remove x l).1.take (remove x l).2 = l.filter (fun a => a ≠ x) ∧
    (remove x l).2 = (l.filter (fun a => a ≠ x)).length ∧
    (remove x l).1.length = l.length := by
  have hfe : (fun a : α => decide (a ≠ x)) = fun a => !decide (a = x) := by
    funext a
    simp [decide_not]
  have heq : removeLoop x l 0 0 = removeIfLoop (fun a => decide (a = x)) l 0 0 :=
    removeLoop_eq_removeIfLoop x l.length l 0 0 (by omega)
  have h := removeIfLoop_spec (fun a => decide (a = x)) l.length l l 0 0
    (by omega) rfl (le_refl 0) (by omega) (by simp) rfl
  rw [remove, heq]
  simpa [ne_eq, hfe] using h

theorem removeIfLoop_frame (p : α → Bool) (N : Nat) : ∀ (l : List α) (b : Nat),
    l.length - b ≤ N → b ≤ l.length →
    (∀ i, b ≤ i → i < l.length → p (l.getD i default) = false) →
    removeIfLoop p l b b = (l, l.length) := by
  induction N with
  | zero =>
    intro l b hN hbl hall
    have hb : ¬ b < l.length := by omega
    rw [removeIfLoop, dif_neg hb]
    have : b = l.length := by omega
    rw [this]
  | succ N ih =>
    intro l b hN hbl hall
    rw [removeIfLoop]
    by_cases hb : b < l.length
    · rw [dif_pos hb,
        if_neg (by rw [hall b (le_refl b) hb]; exact fun hc => by simp at hc),
        if_neg (by simp)]
      exact ih l (b + 1) (by omega) (by omega) (fun i h1 h2 => hall i (by omega) h2)
    · rw [dif_neg hb]
      have : b = l.length := by omega
      rw [this]

/-- C10: when no element of the range equals `x`, `algs::remove` returns the
end cursor and performs no write, leaving the range unchanged; likewise
`algs::remove_if` when the predicate holds for no element. -/
theorem remove_noop_of_absent (x : α) (p : α → Bool) (l : List α)
    (h1 : x ∉ l) (h2 : ∀ a ∈ l, p a = false) :
    remove x l = (l, l.length) ∧ remove_if p l = (l, l.length) := by
  have hmem : ∀ i, i < l.length → l.getD i default ∈ l := by
    intro i hi
    rw [List.getD_eq_getElem _ _ hi]
    exact List.getElem_mem hi
  constructor
  · rw [remove, removeLoop_eq_removeIfLoop x l.length l 0 0 (by omega)]
    apply removeIfLoop_frame _ l.length l 0 (by omega) (by omega)
    intro i _ hi
    simp only [decide_eq_false_iff_not]
    intro hcontra
    exact h1 (hcontra ▸ hmem i hi)
  · rw [remove_if]
    apply removeIfLoop_frame _ l.length l 0 (by omega) (by omega)
    intro i _ hi
    exact h2 _ (hmem i hi)

/-- Witness for C10 at a concrete input. -/
theorem remove_noop_of_absent_witness :
    remove 5 [1, 2, 3] = ([1, 2, 3], 3) ∧
    remove_if (fun a => decide (a > 3)) [1, 2, 3] = ([1, 2, 3], 3) := by
  have h := remove_noop_of_absent 5 (fun a => decide (a > 3)) [1, 2, 3]
    (by decide) (by decide)
  simpa using h

section BinarySearch

variable {β : Type} [LinearOrder β] [Inhabited β]

/-- Embedding of `algs::binary_search` (algs.h:333-346) on the range `[b, e)`
of the sequence `l`, with the random-access cursors as indices: the midpoint is
`b + (e - b) / 2`, the comparison is three-way through `<` alone, and the
loop while `b < e` is the recursion. -/
def binary_search (l : List β) (b e : Nat) (x : β) : Bool :=
  if h : b < e then
    if x < l.getD (b + (e - b) / 2) default then
      binary_search l b (b + (e - b) / 2) x
    else if l.getD (b + (e - b) / 2) default < x then
      binary_search l (b + (e - b) / 2 + 1) e x
    else true
  else false
termination_by e - b
decreasing_by all_goals omega

theorem sorted_getD_le (l : List β) (hs : l.Sorted (· ≤ ·)) (i j : Nat)
    (hij : i ≤ j) (hj : j < l.length) :
    l.getD i default ≤ l.getD j default := by
  have hi : i < l.length := by omega
  rw [List.getD_eq_getElem _ _ hi, List.getD_eq_getElem _ _ hj]
  rcases Nat.eq_or_lt_of_le hij with h | h
  · subst h
    exact le_refl _
  · have := hs.rel_get_of_lt (a := ⟨i, hi⟩) (b := ⟨j, hj⟩) h
    simpa using this

theorem binary_search_complete (x : β) (N : Nat) : ∀ (l : List β) (b e : Nat),
    e - b ≤ N → l.Sorted (· ≤ ·) → e ≤ l.length →
    ∀ i, b ≤ i → i < e → l.getD i default = x →
    binary_search l b e x = true := by
  induction N with
  | zero =>
    intro l b e hN _ _ i hbi hie _
    omega
  | succ N ih =>
    intro l b e hN hs hel i hbi hie hx
    have hbe : b < e := by omega
    have hmid1 : b ≤ b + (e - b) / 2 := by omega
    have hmid2 : b + (e - b) / 2 < e := by omega
    rw [binary_search, dif_pos hbe]
    rcases lt_trichotomy x (l.getD (b + (e - b) / 2) default) with h1 | h1 | h1
    · rw [if_pos h1]
      have himid : i < b + (e - b) / 2 := by
        by_contra hc
        have hle : l.getD (b + (e - b) / 2) default ≤ l.getD i default :=
          sorted_getD_le l hs _ i (by omega) (by omega)
        rw [hx] at hle
        exact absurd hle (not_le_of_lt h1)
      exact ih l b (b + (e - b) / 2) (by omega) hs (by omega) i hbi himid hx
    · rw [if_neg (by rw [h1]; exact lt_irrefl _), if_neg (by rw [h1]; exact lt_irrefl _)]
    · rw [if_neg (by exact fun hc => absurd h1 (not_lt_of_lt hc)), if_pos h1]
      have himid : b + (e - b) / 2 < i := by
        by_contra hc
        have hle : l.getD i default ≤ l.getD (b + (e - b) / 2) default :=
          sorted_getD_le l hs i _ (by omega) (by omega)
        rw [hx] at hle
        exact absurd hle (not_le_of_lt h1)
      exact ih l (b + (e - b) / 2 + 1) e (by omega) hs hel i (by omega) hie hx

theorem binary_search_sound (x : β) (N : Nat) : ∀ (l : List β) (b e : Nat),
    e - b ≤ N → e ≤ l.length → binary_search l b e x = true →
    ∃ i, b ≤ i ∧ i < e ∧ l.getD i default = x := by
  induction N with
  | zero =>
    intro l b e hN _ h
    rw [binary_search, dif_neg (by omega)] at h
    exact absurd h (by simp)
  | succ N ih =>
    intro l b e hN hel h
    by_cases hbe : b < e
    · rw [binary_search, dif_pos hbe] at h
      by_cases h1 : x < l.getD (b + (e - b) / 2) default
      · rw [if_pos h1] at h
        obtain ⟨i, h2, h3, h4⟩ := ih l b (b + (e - b) / 2) (by omega) (by omega) h
        exact ⟨i, h2, by omega, h4⟩
      · rw [if_neg h1] at h
        by_cases h2 : l.getD (b + (e - b) / 2) default < x
        · rw [if_pos h2] at h
          obtain ⟨i, h3, h4, h5⟩ := ih l (b + (e - b) / 2 + 1) e (by omega) hel h
          exact ⟨i, by omega, h4, h5⟩
        · exact ⟨b + (e - b) / 2, by omega, by omega,
            le_antisymm (not_lt.mp h1) (not_lt.mp h2)⟩
    · rw [binary_search, dif_neg hbe] at h
      exact absurd h (by simp)

/-- C3: on a range sorted ascending, `algs::binary_search` returns `true`
exactly when the value is present; in particular it returns `false` on the
empty range and whenever the value is absent. -/
theorem binary_search_correct (l : List β) (hs : l.Sorted (· ≤ ·)) (x : β) :
    binary_search l 0 l.length x = true ↔ x ∈ l := by
  constructor
  · intro h
    obtain ⟨i, _, hi, hx⟩ := binary_search_sound x l.length l 0 l.length
      (by omega) (le_refl _) h
    rw [List.getD_eq_getElem _ _ (by omega)] at hx
    exact hx ▸ List.getElem_mem _
  · intro hmem
    obtain ⟨i, hi, hx⟩ := List.mem_iff_getElem.mp hmem
    exact binary_search_complete x l.length l 0 l.length (by omega) hs
      (le_refl _) i (by omega) hi (by rw [List.getD_eq_getElem _ _ hi]; exact hx)

/-- Witness for C3 at a concrete sorted range: the present value 2 is found
and, by the same theorem at value 9, an absent value is not. -/
theorem binary_search_correct_witness :
    (binary_search [0, 1, 2, 3] 0 ([0, 1, 2, 3] : List ℕ).length 2 = true ↔
      2 ∈ ([0, 1, 2, 3] : List ℕ)) ∧
    (binary_search [0, 1, 2, 3] 0 ([0, 1, 2, 3] : List ℕ).length 9 = true ↔
      9 ∈ ([0, 1, 2, 3] : List ℕ)) :=
  ⟨binary_search_correct [0, 1, 2, 3] (by decide) 2,
   binary_search_correct [0, 1, 2, 3] (by decide) 9⟩

end BinarySearch

/-- Embedding of the loop of `algs::remove_copy` (algs.h:150-157): the source
range is the list `src`, the destination sequence is `dst` written through the
output cursor at offset `d`; `if (*b != x) *d++ = *b; ++b;`. -/
def removeCopyLoop (x : α) (src : List α) (dst : List α) (d : Nat) : List α × Nat :=
  match src with
  | [] => (dst, d)
  | v :: t =>
    if v ≠ x then removeCopyLoop x t (dst.set d v) (d + 1)
    else removeCopyLoop x t dst d

/-- Embedding of `algs::remove_copy` itself: the loop runs, but the
`OutputIt`-returning function body contains no `return` statement on any path,
so the returned cursor is modelled as `none`. -/
def remove_copy (x : α) (src dst : List α) (d : Nat) : List α × Option Nat :=
  ((removeCopyLoop x src dst d).1, none)

/-- Embedding of the loop of `algs::remove_copy_if` (algs.h:169-176).  The
source applies the predicate to the cursor itself (`if (!p(b))`), not to the
dereferenced element `*b`, so the embedded predicate takes the source offset
`b`. -/
def removeCopyIfLoop (p : Nat → Bool) : List α → Nat → List α → Nat → List α × Nat
  | [], _, dst, d => (dst, d)
  | v :: t, b, dst, d =>
    if !p b then removeCopyIfLoop p t (b + 1) (dst.set d v) (d + 1)
    else removeCopyIfLoop p t (b + 1) dst d

/-- Embedding of `algs::remove_copy_if` itself; as with `remove_copy`, no path
executes a `return`, so the returned cursor is modelled as `none`. -/
def remove_copy_if (p : Nat → Bool) (src dst : List α) (d : Nat) :
    List α × Option Nat :=
  ((removeCopyIfLoop p src 0 dst d).1, none)

/-- C4 (code defect): `algs::remove_copy` performs the filtered copy — at the
failing input the elements not equal to 2 land at the destination in order —
but the `OutputIt`-returning function falls off its end without a `return`
statement on any path, so it never yields the end-of-output cursor. -/
theorem remove_copy_missing_return :
    (∀ (x : ℕ) (src dst : List ℕ) (d : Nat), (remove_copy x src dst d).2 = none) ∧
    remove_copy 2 [1, 2, 3] [0, 0, 0] 0 = ([1, 3, 0], none) := by
  refine ⟨fun x src dst d => rfl, ?_⟩
  rfl

/-- C5 (code defect): `algs::remove_copy_if` invokes the predicate on the
cursor, not on the element value.  With the boolean function `(= 5)` over the
source `[0, 5]` the code tests the offsets 0 and 1 — both giving `false` — and
copies both elements, while the claimed contract (predicate on element values)
keeps only `[0]`; and as with `remove_copy` no end-of-output cursor is ever
returned. -/
theorem remove_copy_if_cursor_predicate :
    remove_copy_if (fun v => decide (v = 5)) [0, 5] [9, 9] 0 = ([0, 5], none) ∧
    ([0, 5] : List ℕ).filter (fun v => !decide (v = 5)) = [0] := by
  refine ⟨?_, by rfl⟩
  rfl

/-- Result of the inner `while (*it1 == *it2)` loop of `algs::search`:
`found` models `return b1` (reached through `it2 == e2`), `hardFail` models
`return e1` (reached through `it1 == e1`), `mismatch` models falling out of
the loop on unequal elements. -/
inductive InnerRes : Type
  | found
  | hardFail
  | mismatch

/-- Embedding of the inner comparison loop of `algs::search` (algs.h:110-117)
on the current haystack suffix and the needle; both are nonempty whenever the
source runs this loop. -/
def searchInner : List α → List α → InnerRes
  | a :: hs, c :: ns =>
    if a = c then
      if ns = [] then InnerRes.found
      else if hs = [] then InnerRes.hardFail
      else searchInner hs ns
    else InnerRes.mismatch
  | _, _ => InnerRes.mismatch

/-- Embedding of the outer `while (b1 != e1)` loop of `algs::search`
(algs.h:107-119): try each haystack suffix left to right; `some i` is the
returned cursor `b1` as an offset, `none` stands for the `return e1` paths. -/
def searchAux (n : List α) : List α → Option Nat
  | [] => none
  | a :: hs =>
    match searchInner (a :: hs) n with
    | InnerRes.found => some 0
    | InnerRes.hardFail => none
    | InnerRes.mismatch => (searchAux n hs).map (· + 1)

/-- Embedding of `algs::search` (algs.h:103-121): the empty needle returns
`b1` (offset 0) at once; otherwise the outer scan runs, and the end cursor
`e1` is the offset `h.length`. -/
def search (h n : List α) : Nat :=
  if n = [] then 0
  else
    match searchAux n h with
    | some i => i
    | none => h.length

theorem searchInner_found_iff : ∀ (hs ns : List α), ns ≠ [] → hs ≠ [] →
    (searchInner hs ns = InnerRes.found ↔ ns <+: hs) := by
  intro hs
  induction hs with
  | nil => intro ns _ hh; exact absurd rfl hh
  | cons a hs' ih =>
    intro ns hn _
    match ns with
    | [] => exact absurd rfl hn
    | c :: ns' =>
      by_cases hac : a = c
      · by_cases hn' : ns' = []
        · subst hn'
          simp [searchInner, hac, List.cons_prefix_cons]
        · by_cases hh' : hs' = []
          · subst hh'
            rw [searchInner, if_pos hac, if_neg hn', if_pos rfl]
            constructor
            · intro hc
              exact absurd hc (by simp)
            · intro hc
              rcases ns' with _ | ⟨d, ns''⟩
              · exact absurd rfl hn'
              · have hlen := hc.length_le
                simp only [List.length_cons, List.length_nil] at hlen
                omega
          · rw [searchInner, if_pos hac, if_neg hn', if_neg hh',
              List.cons_prefix_cons]
            rw [ih ns' hn' hh']
            simp [hac]
      · rw [searchInner, if_neg hac, List.cons_prefix_cons]
        constructor
        · intro hc
          exact absurd hc (by simp)
        · intro hc
          exact absurd hc.1 (fun hca => hac hca.symm)

theorem searchInner_hardFail_length : ∀ (hs ns : List α), ns ≠ [] → hs ≠ [] →
    searchInner hs ns = InnerRes.hardFail → hs.length < ns.length := by
  intro hs
  induction hs with
  | nil => intro ns _ hh; exact absurd rfl hh
  | cons a hs' ih =>
    intro ns hn _ hres
    match ns with
    | [] => exact absurd rfl hn
    | c :: ns' =>
      by_cases hac : a = c
      · by_cases hn' : ns' = []
        · rw [searchInner, if_pos hac, if_pos hn'] at hres
          exact absurd hres (by simp)
        · by_cases hh' : hs' = []
          · subst hh'
            rcases ns' with _ | ⟨d, ns''⟩
            · exact absurd rfl hn'
            · simp only [List.length_cons, List.length_nil]
              omega
          · rw [searchInner, if_pos hac, if_neg hn', if_neg hh'] at hres
            have := ih ns' hn' hh' hres
            simp only [List.length_cons]
            omega
      · rw [searchInner, if_neg hac] at hres
        exact absurd hres (by simp)

theorem searchAux_none_spec (ns : List α) (hn : ns ≠ []) : ∀ hs,
    searchAux ns hs = none → ∀ j, ¬ ns <+: hs.drop j := by
  intro hs
  induction hs with
  | nil =>
    intro _ j hpre
    rw [List.drop_nil] at hpre
    exact hn (List.prefix_nil.mp hpre)
  | cons a hs' ih =>
    intro hnone j hpre
    cases hres : searchInner (a :: hs') ns with
    | found =>
      rw [searchAux, hres] at hnone
      simp at hnone
    | hardFail =>
      have hlen := searchInner_hardFail_length (a :: hs') ns hn (by simp) hres
      have h1 : ns.length ≤ ((a :: hs').drop j).length := hpre.length_le
      rw [List.length_drop] at h1
      simp only [List.length_cons] at h1 hlen
      omega
    | mismatch =>
      rw [searchAux, hres] at hnone
      simp only [Option.map_eq_none'] at hnone
      cases j with
      | zero =>
        rw [List.drop_zero] at hpre
        have hfound := (searchInner_found_iff (a :: hs') ns hn (by simp)).mpr hpre
        rw [hfound] at hres
        exact absurd hres (by simp)
      | succ k =>
        rw [List.drop_succ_cons] at hpre
        exact ih hnone k hpre

theorem searchAux_some_spec (ns : List α) (hn : ns ≠ []) : ∀ hs i,
    searchAux ns hs = some i →
    i < hs.length ∧ ns <+: hs.drop i ∧ ∀ j, j < i → ¬ ns <+: hs.drop j := by
  intro hs
  induction hs with
  | nil =>
    intro i hsome
    rw [searchAux] at hsome
    exact absurd hsome (by simp)
  | cons a hs' ih =>
    intro i hsome
    cases hres : searchInner (a :: hs') ns with
    | found =>
      rw [searchAux, hres] at hsome
      simp at hsome
      subst hsome
      refine ⟨by simp, ?_, by omega⟩
      rw [List.drop_zero]
      exact (searchInner_found_iff (a :: hs') ns hn (by simp)).mp hres
    | hardFail =>
      rw [searchAux, hres] at hsome
      simp at hsome
    | mismatch =>
      rw [searchAux, hres] at hsome
      simp only [Option.map_eq_some'] at hsome
      obtain ⟨i', hsome', hi⟩ := hsome
      obtain ⟨h1, h2, h3⟩ := ih i' hsome'
      subst hi
      refine ⟨by simp; omega, by rwa [List.drop_succ_cons], ?_⟩
      intro j hj hpre
      cases j with
      | zero =>
        rw [List.drop_zero] at hpre
        have hfound := (searchInner_found_iff (a :: hs') ns hn (by simp)).mpr hpre
        rw [hfound] at hres
        exact absurd hres (by simp)
      | succ k =>
        rw [List.drop_succ_cons] at hpre
        exact h3 k (by omega) hpre

/-- C7: `algs::search` returns `b1` (offset 0) for the empty needle; otherwise
it returns the start of the leftmost occurrence of the needle as a contiguous
subsequence of the haystack, and the end cursor `h.length` when there is no
occurrence. -/
theorem search_spec (h n : List α) :
    (n = [] → search h n = 0) ∧
    (n ≠ [] →
      search h n ≤ h.length ∧
      (∀ i, i < search h n → ¬ n <+: h.drop i) ∧
      (search h n < h.length → n <+: h.drop (search h n)) ∧
      (search h n = h.length → ∀ i, ¬ n <+: h.drop i)) := by
  constructor
  · intro hn
    rw [search, if_pos hn]
  · intro hn
    cases hres : searchAux n h with
    | some i =>
      have hsearch : search h n = i := by
        rw [search, if_neg hn, hres]
      obtain ⟨h1, h2, h3⟩ := searchAux_some_spec n hn h i hres
      rw [hsearch]
      exact ⟨by omega, h3, fun _ => h2, fun hc => absurd hc (by omega)⟩
    | none =>
      have hsearch : search h n = h.length := by
        rw [search, if_neg hn, hres]
      have hno := searchAux_none_spec n hn h hres
      rw [hsearch]
      exact ⟨le_refl _, fun i _ => hno i, fun hc => absurd hc (by omega),
        fun _ => hno⟩

theorem cons_set_perm : ∀ (t : List α) (k : Nat) (a : α), k < t.length →
    List.Perm ((t.getD k default) :: t.set k a) (a :: t) := by
  intro t
  induction t with
  | nil => intro k a hk; simp at hk
  | cons bh t' ih =>
    intro k a hk
    cases k with
    | zero =>
      simp only [List.getD_cons_zero, List.set_cons_zero]
      exact List.Perm.swap a bh t'
    | succ m =>
      simp only [List.getD_cons_succ, List.set_cons_succ]
      have hm : m < t'.length := by simpa using hk
      exact ((List.Perm.swap bh (t'.getD m default) (t'.set m a)).trans
        (List.Perm.cons bh (ih m a hm))).trans (List.Perm.swap a bh t')

theorem swapL_perm : ∀ (l : List α) (i j : Nat), i < l.length → j < l.length →
    List.Perm (swapL l i j) l := by
  intro l
  induction l with
  | nil => intro i j hi _; simp at hi
  | cons a t ih =>
    intro i j hi hj
    cases i with
    | zero =>
      cases j with
      | zero => simp [swapL]
      | succ m =>
        have hm : m < t.length := by simpa using hj
        simp only [swapL, List.getD_cons_zero, List.getD_cons_succ,
          List.set_cons_zero, List.set_cons_succ]
        exact cons_set_perm t m a hm
    | succ k =>
      cases j with
      | zero =>
        have hk : k < t.length := by simpa using hi
        simp only [swapL, List.getD_cons_zero, List.getD_cons_succ,
          List.set_cons_zero, List.set_cons_succ]
        exact cons_set_perm t k a hk
      | succ m =>
        have hk : k < t.length := by simpa using hi
        have hm : m < t.length := by simpa using hj
        simp only [swapL, List.getD_cons_succ, List.set_cons_succ]
        exact List.Perm.cons a (ih k m hk hm)

/-- Embedding of the inner `while (p(*b))` loop of `algs::partition`
(algs.h:258-262): advance `b` over elements satisfying `p`; `++b; if (b == e)
return b;` makes the cursor `e` the early-return value. -/
def partB (p : α → Bool) (l : List α) (b e : Nat) : Nat :=
  if p (l.getD b default) then
    if h : b + 1 < e then partB p l (b + 1) e else e
  else b
termination_by e - b
decreasing_by omega

/-- Embedding of the inner `do { --e; if (b == e) return b; } while (!p(*e));`
loop of `algs::partition` (algs.h:263-267): retreat `e` over elements failing
`p`; the result `b` is the early-return value, any other result is the final
cursor `e` at an element satisfying `p`. -/
def partE (p : α → Bool) (l : List α) (b e : Nat) : Nat :=
  if b = e - 1 then b
  else if p (l.getD (e - 1) default) then e - 1
  else if h : b < e - 1 then partE p l b (e - 1) else b
termination_by e
decreasing_by omega

/-- Embedding of the outer `while (b != e)` loop of `algs::partition`
(algs.h:255-272): run the two inner scans, propagate their early returns, and
otherwise `swap(*b, *e); ++b;` and continue.  (The final guard restates the
bounds the inner scans guarantee whenever `b < e`, so that the recursion's
measure decreases; the `else` branch is unreachable from a well-formed
range.) -/
def partitionLoop (p : α → Bool) (l : List α) (b e : Nat) : List α × Nat :=
  if b = e then (l, b)
  else if partB p l b e = e then (l, e)
  else if partE p l (partB p l b e) e = partB p l b e then (l, partB p l b e)
  else if h : b ≤ partB p l b e ∧ partB p l b e + 1 ≤ partE p l (partB p l b e) e
      ∧ partE p l (partB p l b e) e < e then
    partitionLoop p (swapL l (partB p l b e) (partE p l (partB p l b e) e))
      (partB p l b e + 1) (partE p l (partB p l b e) e)
  else (swapL l (partB p l b e) (partE p l (partB p l b e) e), partB p l b e + 1)
termination_by e - b
decreasing_by omega

/-- The whole-range call `algs::partition(v.begin(), v.end(), p)`. -/
def partition (p : α → Bool) (l : List α) : List α × Nat :=
  partitionLoop p l 0 l.length

theorem partB_spec (p : α → Bool) (l : List α) (N : Nat) : ∀ b e, e - b ≤ N →
    b < e →
    b ≤ partB p l b e ∧ partB p l b e ≤ e ∧
    (∀ i, b ≤ i → i < partB p l b e → p (l.getD i default) = true) ∧
    (partB p l b e < e → p (l.getD (partB p l b e) default) = false) := by
  induction N with
  | zero => intro b e hN hbe; omega
  | succ N ih =>
    intro b e hN hbe
    rw [partB]
    by_cases hp : p (l.getD b default) = true
    · rw [if_pos hp]
      by_cases h : b + 1 < e
      · rw [dif_pos h]
        obtain ⟨ih1, ih2, ih3, ih4⟩ := ih (b + 1) e (by omega) h
        refine ⟨by omega, ih2, ?_, ih4⟩
        intro i hbi hilt
        rcases Nat.eq_or_lt_of_le hbi with heq | hlt
        · rw [← heq]
          exact hp
        · exact ih3 i (by omega) hilt
      · rw [dif_neg h]
        refine ⟨by omega, le_refl _, ?_, fun hc => absurd hc (by omega)⟩
        intro i hbi hilt
        have hib : i = b := by omega
        rw [hib]
        exact hp
    · rw [if_neg hp]
      refine ⟨le_refl _, by omega, fun i h1 h2 => absurd h2 (by omega), ?_⟩
      intro _
      revert hp
      cases p (l.getD b default) <;> simp

theorem partE_spec (p : α → Bool) (l : List α) (N : Nat) : ∀ b e, e ≤ N →
    b < e →
    b ≤ partE p l b e ∧ partE p l b e < e ∧
    (∀ i, partE p l b e < i → i < e → p (l.getD i default) = false) ∧
    (b < partE p l b e → p (l.getD (partE p l b e) default) = true) := by
  induction N with
  | zero => intro b e hN hbe; omega
  | succ N ih =>
    intro b e hN hbe
    rw [partE]
    by_cases h1 : b = e - 1
    · rw [if_pos h1]
      exact ⟨le_refl _, by omega, fun i hi1 hi2 => absurd hi2 (by omega),
        fun hc => absurd hc (by omega)⟩
    · rw [if_neg h1]
      by_cases h2 : p (l.getD (e - 1) default) = true
      · rw [if_pos h2]
        exact ⟨by omega, by omega, fun i hi1 hi2 => absurd hi2 (by omega),
          fun _ => h2⟩
      · rw [if_neg h2]
        have h3 : b < e - 1 := by omega
        rw [dif_pos h3]
        obtain ⟨ih1, ih2, ih3, ih4⟩ := ih b (e - 1) (by omega) h3
        refine ⟨ih1, by omega, ?_, ih4⟩
        intro i hi1 hi2
        by_cases hie : i = e - 1
        · rw [hie]
          revert h2
          cases p (l.getD (e - 1) default) <;> simp
        · exact ih3 i hi1 (by omega)

theorem partitionLoop_spec (p : α → Bool) (N : Nat) : ∀ (l : List α) (b e : Nat),
    e - b ≤ N → b ≤ e → e ≤ l.length →
    (∀ i, i < b → p (l.getD i default) = true) →
    (∀ i, e ≤ i → i < l.length → p (l.getD i default) = false) →
    List.Perm (partitionLoop p l b e).1 l ∧
    (partitionLoop p l b e).1.length = l.length ∧
    b ≤ (partitionLoop p l b e).2 ∧ (partitionLoop p l b e).2 ≤ e ∧
    (∀ i, i < (partitionLoop p l b e).2 →
      p ((partitionLoop p l b e).1.getD i default) = true) ∧
    (∀ i, (partitionLoop p l b e).2 ≤ i → i < l.length →
      p ((partitionLoop p l b e).1.getD i default) = false) := by
  induction N with
  | zero =>
    intro l b e hN hbe hel hpre hpost
    have h0 : b = e := by omega
    rw [partitionLoop, if_pos h0]
    exact ⟨List.Perm.refl l, rfl, le_refl b, by omega, hpre,
      fun i h1 h2 => hpost i (by omega) h2⟩
  | succ N ih =>
    intro l b e hN hbe hel hpre hpost
    rw [partitionLoop]
    by_cases h0 : b = e
    · rw [if_pos h0]
      exact ⟨List.Perm.refl l, rfl, le_refl b, by omega, hpre,
        fun i h1 h2 => hpost i (by omega) h2⟩
    · rw [if_neg h0]
      have hblt : b < e := by omega
      obtain ⟨hb1, hb2, hb3, hb4⟩ := partB_spec p l (e - b) b e (le_refl _) hblt
      set B := partB p l b e with hB
      by_cases hBe : B = e
      · rw [if_pos hBe]
        refine ⟨List.Perm.refl l, rfl, by omega, le_refl e, ?_, ?_⟩
        · intro i hi
          by_cases hib : i < b
          · exact hpre i hib
          · exact hb3 i (by omega) (by omega)
        · intro i h1 h2
          exact hpost i h1 h2
      · rw [if_neg hBe]
        have hBlt : B < e := by omega
        have hpB : p (l.getD B default) = false := hb4 hBlt
        obtain ⟨he1, he2, he3, he4⟩ := partE_spec p l e B e (le_refl _) hBlt
        set E := partE p l B e with hE
        by_cases hEB : E = B
        · rw [if_pos hEB]
          refine ⟨List.Perm.refl l, rfl, by omega, by omega, ?_, ?_⟩
          · intro i hi
            by_cases hib : i < b
            · exact hpre i hib
            · exact hb3 i (by omega) hi
          · intro i h1 h2
            by_cases hiB : i = B
            · rw [hiB]
              exact hpB
            · by_cases hie : i < e
              · exact he3 i (by omega) hie
              · exact hpost i (by omega) h2
        · rw [if_neg hEB]
          have hBE : B < E := by omega
          have hpE : p (l.getD E default) = true := he4 hBE
          have hguard : b ≤ B ∧ B + 1 ≤ E ∧ E < e := ⟨hb1, by omega, he2⟩
          rw [dif_pos hguard]
          have hBlen : B < l.length := by omega
          have hElen : E < l.length := by omega
          have hswlen : (swapL l B E).length = l.length := length_swapL l B E
          have hget := getD_swapL l B E hBlen hElen
          have hpre' : ∀ i, i < B + 1 → p ((swapL l B E).getD i default) = true := by
            intro i hi
            rw [hget i]
            have hiE : i ≠ E := by omega
            rw [if_neg hiE]
            by_cases hiB : i = B
            · rw [if_pos hiB]
              exact hpE
            · rw [if_neg hiB]
              by_cases hib : i < b
              · exact hpre i hib
              · exact hb3 i (by omega) (by omega)
          have hpost' : ∀ i, E ≤ i → i < (swapL l B E).length →
              p ((swapL l B E).getD i default) = false := by
            intro i h1 h2
            rw [hswlen] at h2
            rw [hget i]
            by_cases hiE : i = E
            · rw [if_pos hiE]
              exact hpB
            · rw [if_neg hiE]
              have hiB : i ≠ B := by omega
              rw [if_neg hiB]
              by_cases hie : i < e
              · exact he3 i (by omega) hie
              · exact hpost i (by omega) h2
          obtain ⟨r1, r2, r3, r4, r5, r6⟩ := ih (swapL l B E) (B + 1) E (by omega)
            (by omega) (by rw [hswlen]; omega) hpre' hpost'
          refine ⟨r1.trans (swapL_perm l B E hBlen hElen), ?_, by omega, by omega,
            r5, ?_⟩
          · rw [r2, hswlen]
          · intro i h1 h2
            exact r6 i h1 (by rw [hswlen]; exact h2)

/-- C2: `algs::partition` returns a cursor `m` such that the predicate holds
for every element of the range before `m` and fails for every element from `m`
to the end, and the range's final contents are a permutation (equal multiset)
of its original contents. -/
theorem partition_spec (p : α → Bool) (l : List α) :
    List.Perm (partition p l).1 l ∧
    (partition p l).2 ≤ l.length ∧
    (∀ i, i < (partition p l).2 → p ((partition p l).1.getD i default) = true) ∧
    (∀ i, (partition p l).2 ≤ i → i < l.length →
      p ((partition p l).1.getD i default) = false) := by
  obtain ⟨r1, r2, r3, r4, r5, r6⟩ := partitionLoop_spec p l.length l 0 l.length
    (by omega) (by omega) (le_refl _)
    (fun i hi => absurd hi (by omega))
    (fun i h1 h2 => absurd h2 (by omega))
  exact ⟨r1, r4, r5, r6⟩

end Algs
